import Mathlib

/-!
# Verification of the `hina` clone pipeline

Shallow embedding of `src/index.js` (the `Hina` class and its `fetch`
helper).  Strings are modelled as `List Char` (JavaScript strings are
sequences of code units; none of the claims depend on surrogate pairs),
with `String.data` used to inject concrete literals.

Each section below names the source lines it embeds.
-/

/-! ## Specifier parser (src/index.js, `Hina.constructor`, lines 36-64) -/

/-- Errors thrown by the embedded code.  `invalidSpecifier` carries the
original input string, mirroring ``new Error(`Could not parse "${src}"`)``
(line 48); `noWrapperFound` mirrors `new Error("No wrapper matches")`
(line 140). -/
inductive HinaError where
  | invalidSpecifier (src : List Char)
  | noWrapperFound
  deriving DecidableEq, Repr

/-- The parsed specifier held by a `Hina` instance: fields `userRepo`,
`sub`, `ref` assigned at lines 61-63. -/
structure CloneSpec where
  userRepo : List Char
  sub : List Char
  ref : Option (List Char)
  deriving DecidableEq, Repr

deriving instance DecidableEq for Except

/-- JavaScript `.` (dot) in a regex without the `s` flag: any character
except a line terminator. -/
def jsDot (c : Char) : Bool :=
  c != '\n' && c != '\r' && c != ' ' && c != ' '

/-- Embedding of the anchored regex match (line 44-46):

`/^(?<userRepo>[^\/]+\/[^\/#]+)(?<sub>\/[^#]*)?(?<ref>#.+)?$/`

Because `[^\/]+` cannot cross a `/`, it always captures exactly the
characters before the first `/`; backtracking it can never succeed, so the
greedy left-to-right match is deterministic and is computed directly:
the owner part is the run before the first `/`, the repo part is the
maximal run of non-`/`-non-`#` characters after it, then the remainder
must be empty, a `/...` sub capture (up to the first `#`), and/or a
`#...` ref capture whose tail is nonempty and free of line terminators
(`.+` is anchored by `$`). -/
def matchSpecifier (s : List Char) :
    Option (List Char × Option (List Char) × Option (List Char)) :=
  let u := s.takeWhile (· != '/')
  match s.dropWhile (· != '/') with
  | '/' :: rest1 =>
    if u = [] then none else
    let r := rest1.takeWhile (fun c => c != '/' && c != '#')
    if r = [] then none else
    match rest1.dropWhile (fun c => c != '/' && c != '#') with
    | [] => some (u ++ '/' :: r, none, none)
    | '/' :: t1 =>
      let sub := '/' :: t1.takeWhile (· != '#')
      match t1.dropWhile (· != '#') with
      | [] => some (u ++ '/' :: r, some sub, none)
      | '#' :: frest =>
        if frest ≠ [] ∧ frest.all jsDot then
          some (u ++ '/' :: r, some sub, some ('#' :: frest))
        else none
      | _ :: _ => none
    | '#' :: frest =>
      if frest ≠ [] ∧ frest.all jsDot then
        some (u ++ '/' :: r, none, some ('#' :: frest))
      else none
    | _ :: _ => none
  | _ => none

/-- Embedding of ``sub.replace(/\/{2,}/g, "/")`` (line 55): every run of
two or more consecutive `/` is replaced by a single `/` (collapsing one
adjacent pair at a time reaches the same normal form). -/
def collapseSlashes : List Char → List Char
  | [] => []
  | c :: rest =>
    if c = '/' ∧ rest.head? = some '/' then collapseSlashes rest
    else c :: collapseSlashes rest

/-- Embedding of ``sub = `/${sub || ""}/`.replace(/\/{2,}/g, "/")``
(line 55); `none` models an `undefined` capture. -/
def normalizeSub (sub : Option (List Char)) : List Char :=
  collapseSlashes ('/' :: (sub.getD []) ++ ['/'])

/-- Embedding of ``ref.replace(/^#+/, "")`` (line 58). -/
def stripLeadingHashes (r : List Char) : List Char :=
  r.dropWhile (· == '#')

/-- Embedding of the `Hina` constructor (lines 36-64): regex match,
failure on no match, then normalization of the captures.  The captured
`ref` group always starts with `#` and is hence truthy, so the
`if (ref)` guard at line 56 strips hashes exactly when the capture is
present. -/
def hinaNew (src : List Char) : Except HinaError CloneSpec :=
  match matchSpecifier src with
  | none => .error (.invalidSpecifier src)
  | some (userRepo, sub, ref) =>
    .ok { userRepo := userRepo
          sub := normalizeSub sub
          ref := ref.map stripLeadingHashes }

/-! ## HTTP fetcher (src/index.js, `fetch`, lines 256-278) -/

/-- An HTTP response as observed by `fetch`: the destructuring
`const { statusCode = 500, statusMessage = "", headers } = resp`
(line 262) defaults an absent status to `500` and an absent message to
`""`, so both are modelled as optional. -/
structure Resp where
  statusCode : Option Nat
  statusMessage : Option String
  location : Option String
  deriving DecidableEq, Repr

/-- Outcome of one `fetch` call: a returned response handle, a thrown
`Error` with its message string, or non-termination of the recursion
(the fuel of the embedding ran out). -/
inductive FetchResult where
  | ok (resp : Resp)
  | error (msg : String)
  | diverges
  deriving DecidableEq, Repr

/-- Embedding of `fetch` (lines 256-278).  The network is a pure
environment `env : String → Resp` mapping each URL to the response the
server gives for it.  The recursion at line 274 (`return await
fetch(location)`) has no depth bound in the source; the embedding makes
it total with a `fuel` parameter and reports exhaustion as
`.diverges`. -/
def fetchGo (env : String → Resp) : Nat → String → FetchResult
  | 0, _ => .diverges
  | fuel + 1, url =>
    let resp := env url
    let statusCode := resp.statusCode.getD 500
    let statusMessage := resp.statusMessage.getD ""
    if 500 ≤ statusCode ∨ 400 ≤ statusCode then
      .error (toString statusCode ++ " " ++ statusMessage)
    else if 300 ≤ statusCode then
      match resp.location with
      | none =>
        .error ("No location header. " ++ toString statusCode ++ " "
          ++ statusMessage)
      | some loc => fetchGo env fuel loc
    else
      .ok resp

/-- A `301 Moved Permanently` response pointing at `loc`. -/
def resp301 (loc : String) : Resp :=
  { statusCode := some 301, statusMessage := some "Moved Permanently",
    location := some loc }

/-- A `200 OK` response. -/
def resp200 : Resp :=
  { statusCode := some 200, statusMessage := some "OK", location := none }

/-- A server hosting a linear redirect chain: the URL consisting of `i`
characters redirects to one of `i + 1` characters while `i < n`, and
any longer URL answers `200 OK`.  Requesting `""` therefore produces a
chain of exactly `n` redirects followed by a success. -/
def chainEnv (n : Nat) : String → Resp := fun url =>
  if url.length < n then resp301 (url.push 'x') else resp200

/-- A server that redirects every URL to itself: an infinite redirect
loop. -/
def loopEnv : String → Resp := fun url => resp301 url

/-! ## Archive inspector/extractor (src/index.js, `Hina.extract`,
lines 120-155) -/

/-- Embedding of `path.match(/^[^\/]+(?=\/$)/)` in the `tar.list` filter
(line 130): the match succeeds exactly when the whole entry path is
`name ++ "/"` for a nonempty slash-free `name` (the greedy `[^\/]+`
takes everything before the first `/`, and the lookahead then requires a
`/` that ends the string); the matched text is `name`. -/
def topDirName (p : List Char) : Option (List Char) :=
  let name := p.takeWhile (· != '/')
  if name ≠ [] ∧ p = name ++ ['/'] then some name else none

/-- Embedding of the wrapper-discovery promise (lines 122-142): the
filter runs over the entry listing in order and `resolve`s with the
first match; if the listing completes without a match the promise is
rejected. -/
def findWrapper (entries : List (List Char)) : Option (List Char) :=
  entries.findSome? topDirName

/-- Splitting on `/`, as JavaScript `"…".split("/")` (used at line 150)
and node-tar path-component handling do: `"a/b/"` ↦ `["a","b",""]`. -/
def splitSlash : List Char → List (List Char)
  | [] => [[]]
  | c :: rest =>
    if c = '/' then [] :: splitSlash rest
    else
      match splitSlash rest with
      | [] => [[c]]
      | s :: ss => (c :: s) :: ss

/-- Joining path components with `/` (JavaScript `parts.join("/")`). -/
def joinSlash : List (List Char) → List Char
  | [] => []
  | s :: ss =>
    match ss with
    | [] => s
    | _ :: _ => s ++ '/' :: joinSlash ss

/-- Removal of all trailing slashes, as node-tar's `stripTrailingSlashes`
applied to both the file-list pattern and entry paths. -/
def stripTrailSlashes : List Char → List Char
  | [] => []
  | c :: rest =>
    match stripTrailSlashes rest with
    | [] => if c = '/' then [] else [c]
    | s => c :: s

/-- Structural prefix removal — `dropPrefix? p l = some rest` iff
`l = p ++ rest` — used to express node-tar's path matching. -/
def dropPrefix? : List Char → List Char → Option (List Char)
  | [], l => some l
  | _ :: _, [] => none
  | c :: p, d :: l => if c = d then dropPrefix? p l else none

/-- node-tar's file-list filter (the `[wrapperDir]` argument at
line 153): after stripping trailing slashes from both the listed pattern
and the entry path, an entry is selected when its path equals the
pattern or lies below it (the pattern is one of its ancestor
directories, i.e. `pattern ++ "/"` is a prefix of the entry path). -/
def tarEntryMatches (fileList entryPath : List Char) : Bool :=
  let w := stripTrailSlashes fileList
  let e := stripTrailSlashes entryPath
  e == w || (dropPrefix? (w ++ ['/']) e).isSome

/-- node-tar's `strip` option (line 150): split the entry path on `/`,
skip the entry when it has fewer components than `strip`, otherwise drop
the first `strip` components and rejoin.  An entry whose remaining path
is empty creates nothing new under the destination and is reported as
`none`. -/
def tarStripPath (strip : Nat) (entryPath : List Char) : Option (List Char) :=
  let parts := splitSlash entryPath
  if parts.length < strip then none
  else
    let p := joinSlash (parts.drop strip)
    if p = [] then none else some p

/-- Embedding of `tar.extract({file, strip, cwd: dest}, [wrapperDir])`
(lines 147-154): the relative paths (under `dest`) of the entries that
the extraction materializes. -/
def tarExtract (entries : List (List Char)) (fileList : List Char)
    (strip : Nat) : List (List Char) :=
  entries.filterMap fun e =>
    if tarEntryMatches fileList e then tarStripPath strip e else none

/-- Embedding of `Hina.extract` (lines 120-155) for an archive with the
given entry listing and a `Hina` instance whose normalized sub-path is
`sub`: discover the wrapper (rejecting with `NoWrapperFound` when there
is none), compose `wrapperDir = wrapper + sub`, and extract with
`strip = wrapperDir.split("/").length - 1`.  The result lists the
relative paths created under the destination. -/
def hinaExtract (entries : List (List Char)) (sub : List Char) :
    Except HinaError (List (List Char)) :=
  match findWrapper entries with
  | none => .error .noWrapperFound
  | some wrapper =>
    let wrapperDir := wrapper ++ sub
    .ok (tarExtract entries wrapperDir ((splitSlash wrapperDir).length - 1))

/-! ## Post-extraction action runner (src/index.js, `Hina.doActionsAt`,
lines 171-247) and the surrounding `clone` call (lines 84-86) -/

/-- JSON values, the possible results of `JSON.parse` (numbers are kept
abstract as integers; none of the claims depend on fractional values). -/
inductive Json where
  | null
  | bool (b : Bool)
  | num (n : Int)
  | str (s : String)
  | arr (elems : List Json)
  | obj (fields : List (String × Json))

/-- JavaScript property access `j.k` on a parsed JSON value: only
objects yield properties; `JSON.parse` keeps the last duplicate key. -/
def getField (j : Json) (k : String) : Option Json :=
  match j with
  | .obj fields => ((fields.filter (fun p => p.1 == k)).map (·.2)).getLast?
  | _ => none

/-- JavaScript falsiness of a JSON value (`if (!action) return false`,
line 196). -/
def isFalsyJson : Json → Bool
  | .null => true
  | .bool false => true
  | .num 0 => true
  | .str "" => true
  | _ => false

/-- Embedding of the validation filter (lines 195-219): keep an entry
when it is truthy and either a `clone` action with a string `src` or a
`remove` action whose `files` is an array of strings. -/
def validAction (j : Json) : Bool :=
  if isFalsyJson j then false
  else
    match getField j "action" with
    | some (.str "clone") =>
      match getField j "src" with
      | some (.str _) => true
      | _ => false
    | some (.str "remove") =>
      match getField j "files" with
      | some (.arr files) =>
        files.all fun f => match f with | .str _ => true | _ => false
      | _ => false
    | _ => false

/-- Embedding of node's `path.resolve(dest, file)` (lines 172 and 234)
for an absolute, already-normalized `dest`: an absolute `file` wins and
the resolution ignores `dest`; otherwise `file` is joined below `dest`.
(`.`/`..` normalization is not modelled; no claim depends on it.) -/
def pathResolve (dest file : String) : String :=
  if file.data.head? = some '/' then file else dest ++ "/" ++ file

/-- The unlink targets of the validated `remove` actions, in manifest
order (lines 221-246): each listed file resolved against `dest`.
`clone` actions contribute nothing (lines 224-227). -/
def removalTargets (dest : String) (items : List Json) : List String :=
  (items.filter validAction).flatMap fun a =>
    match getField a "action", getField a "files" with
    | some (.str "remove"), some (.arr files) =>
      files.filterMap fun f =>
        match f with
        | .str s => some (pathResolve dest s)
        | _ => none
    | _, _ => []

/-- A failure that rejects the `doActionsAt` promise.  `JSON.parse`
throwing on malformed manifest contents (line 180) is the only rejection
the claims exercise. -/
inductive ActionFailure where
  | jsonParseError
  deriving DecidableEq, Repr

/-- A `"warn"` event observed during the action phase: either `clone`'s
catch handler surfacing a rejection of `doActionsAt` (lines 84-86), or a
per-file unlink failure caught inside a `remove` action (lines 234-236,
carrying the failed target path). -/
inductive ActionWarn where
  | actionsError (e : ActionFailure)
  | removeFailed (target : String)
  deriving DecidableEq, Repr

/-- Result of one `doActionsAt` run. -/
structure RunOutcome where
  /-- settlement of the `doActionsAt` promise -/
  result : Except ActionFailure Unit
  /-- whether `degit.json` itself was unlinked (line 183) -/
  manifestDeleted : Bool
  /-- targets successfully unlinked by `remove` actions -/
  removed : List String
  /-- `"warn"` events emitted inside `doActionsAt` -/
  warns : List ActionWarn
  deriving DecidableEq, Repr

/-- Embedding of `Hina.doActionsAt(dest)` (lines 171-247).  The
filesystem is abstracted by `manifest` — `none` when `degit.json` is
absent or unreadable (the `readFile(...).catch(() => null)` at
lines 174-176), `some none` when it reads but `JSON.parse` throws
(line 180), `some (some v)` when it parses to `v` — and by `unlinkOk`,
telling which unlink targets succeed.  Non-array data returns before
the manifest is unlinked (lines 181-183); otherwise the manifest is
deleted, entries are validated, and each `remove` target is unlinked
with failures downgraded to warnings. -/
def doActionsAt (dest : String) (manifest : Option (Option Json))
    (unlinkOk : String → Bool) : RunOutcome :=
  match manifest with
  | none => { result := .ok (), manifestDeleted := false, removed := [],
              warns := [] }
  | some none => { result := .error .jsonParseError, manifestDeleted := false,
                   removed := [], warns := [] }
  | some (some rawData) =>
    match rawData with
    | .arr items =>
      let targets := removalTargets dest items
      { result := .ok ()
        manifestDeleted := true
        removed := targets.filter unlinkOk
        warns := (targets.filter (fun t => !unlinkOk t)).map .removeFailed }
    | _ => { result := .ok (), manifestDeleted := false, removed := [],
             warns := [] }

/-- The `"warn"` events the action phase of `clone` surfaces (lines
84-86): the warnings emitted inside `doActionsAt` followed by the
rejection of `doActionsAt`, if any, re-emitted as a warning by `clone`'s
catch handler. -/
def cloneActionWarns (dest : String) (manifest : Option (Option Json))
    (unlinkOk : String → Bool) : List ActionWarn :=
  let out := doActionsAt dest manifest unlinkOk
  out.warns ++ (match out.result with
    | .error e => [.actionsError e]
    | .ok _ => [])

/-! ## Claim C1 — redirect following and the missing cap -/

/-- A JSON value with `.arr` at the top level. -/
def isArrJson : Json → Bool
  | .arr _ => true
  | _ => false

/-- C1 (code bug evidence): the source `fetch` follows redirect chains of
any length — far beyond the spec's cap of 20 — and terminates at the
first `2xx` instead of failing with `TooManyRedirects`: on a linear
chain of 25 redirects it returns the final `200 OK`, and on a cyclic
redirect it recurses forever (every fuel bound is exhausted), so no
`TooManyRedirects` outcome exists anywhere in its behaviour. -/
theorem c1_redirects_followed_without_cap :
    fetchGo (chainEnv 25) 26 "" = .ok resp200 ∧
    (∀ fuel url, fetchGo loopEnv fuel url = .diverges) := by
  refine ⟨by decide, ?_⟩
  intro fuel
  induction fuel with
  | zero => intro url; rfl
  | succ n ih =>
    intro url
    simpa [fetchGo, loopEnv, resp301] using ih url

/-! ## Claim C6 — status-class handling of one response -/

/-- C6: for every response, `fetch` throws `HttpError` with the status
and message when the status is in `[400,599)`, throws when the status is
in `[300,399)` and no `location` header is present, and returns the
response handle itself when the status is in `[200,299)`. -/
theorem c6_status_class_handling (env : String → Resp) (fuel : Nat)
    (url : String) :
    (400 ≤ (env url).statusCode.getD 500 →
      (env url).statusCode.getD 500 < 599 →
      fetchGo env (fuel + 1) url =
        .error (toString ((env url).statusCode.getD 500) ++ " "
          ++ (env url).statusMessage.getD "")) ∧
    (300 ≤ (env url).statusCode.getD 500 →
      (env url).statusCode.getD 500 < 400 →
      (env url).location = none →
      fetchGo env (fuel + 1) url =
        .error ("No location header. "
          ++ toString ((env url).statusCode.getD 500) ++ " "
          ++ (env url).statusMessage.getD "")) ∧
    (200 ≤ (env url).statusCode.getD 500 →
      (env url).statusCode.getD 500 < 300 →
      fetchGo env (fuel + 1) url = .ok (env url)) := by
  refine ⟨fun h4 _ => ?_, fun h3 h3' hloc => ?_, fun _ h2 => ?_⟩
  · simp only [fetchGo]
    rw [if_pos (Or.inr h4)]
  · simp only [fetchGo]
    rw [if_neg (by omega), if_pos h3, hloc]
  · simp only [fetchGo]
    rw [if_neg (by omega), if_neg (by omega)]

/-- Witness for C6 at concrete responses: a `404`, a `302` without
`location`, and a `200`. -/
theorem c6_status_class_handling_witness :
    fetchGo (fun _ => ⟨some 404, some "Not Found", none⟩) 1 "u" =
      .error "404 Not Found" ∧
    fetchGo (fun _ => ⟨some 302, some "Found", none⟩) 1 "u" =
      .error "No location header. 302 Found" ∧
    fetchGo (fun _ => ⟨some 200, some "OK", none⟩) 1 "u" =
      .ok ⟨some 200, some "OK", none⟩ := by
  refine ⟨?_, ?_, ?_⟩
  · exact ((c6_status_class_handling
      (fun _ => ⟨some 404, some "Not Found", none⟩) 0 "u").1
      (by decide) (by decide)).trans (by decide)
  · exact ((c6_status_class_handling
      (fun _ => ⟨some 302, some "Found", none⟩) 0 "u").2.1
      (by decide) (by decide) rfl).trans (by decide)
  · exact (c6_status_class_handling
      (fun _ => ⟨some 200, some "OK", none⟩) 0 "u").2.2
      (by decide) (by decide)

/-! ## Claim C5 — what the action phase swallows and what it surfaces -/

/-- C5 (counterexample): a manifest that is present but fails to parse
as JSON is *not* swallowed entirely — `doActionsAt` rejects, `clone`'s
catch surfaces the parse failure as a warning, so the run is observably
different from "no manifest present" and the surfaced warning is not a
file-removal failure. -/
theorem c5_parse_error_not_swallowed :
    cloneActionWarns "/out" (some none) (fun _ => true) =
      [.actionsError .jsonParseError] ∧
    cloneActionWarns "/out" none (fun _ => true) = [] ∧
    (doActionsAt "/out" (some none) (fun _ => true)).result =
      .error .jsonParseError := by
  exact ⟨rfl, rfl, rfl⟩

/-- C5 (amended): shape failures (non-array top level; invalid entries
are dropped by validation) are swallowed silently, but a JSON *parse*
failure rejects `doActionsAt` and is surfaced by `clone` as a warning;
the warnings surfaced by the action phase are exactly the per-file
removal failures within validated actions plus, for unparseable
manifests, the parse failure itself. -/
theorem c5_amended_surfaced_warnings :
    (∀ dest ok, cloneActionWarns dest none ok = []) ∧
    (∀ dest ok, cloneActionWarns dest (some none) ok =
      [.actionsError .jsonParseError]) ∧
    (∀ dest v ok, isArrJson v = false →
      cloneActionWarns dest (some (some v)) ok = []) ∧
    (∀ dest items ok, cloneActionWarns dest (some (some (.arr items))) ok =
      ((removalTargets dest items).filter (fun t => !ok t)).map
        .removeFailed) := by
  refine ⟨fun _ _ => rfl, fun _ _ => rfl, fun dest v ok hv => ?_,
    fun dest items ok => by simp [cloneActionWarns, doActionsAt]⟩
  cases v <;> simp_all [cloneActionWarns, doActionsAt, isArrJson]

/-- Witness for C5's amended statement: a non-array manifest body is a
silent no-op. -/
theorem c5_amended_surfaced_warnings_witness :
    isArrJson (.obj [("action", .str "remove")]) = false ∧
    cloneActionWarns "/out" (some (some (.obj [("action", .str "remove")])))
      (fun _ => false) = [] :=
  ⟨rfl, c5_amended_surfaced_warnings.2.2.1 "/out"
    (.obj [("action", .str "remove")]) (fun _ => false) rfl⟩

/-! ## Claim C10 — non-array manifests leave everything untouched -/

/-- C10: when `degit.json` reads and parses but its top-level value is
not an array, `doActionsAt` returns without performing any action and
without deleting the manifest; conversely the manifest file is unlinked
only when the parsed top-level value is an array. -/
theorem c10_nonarray_manifest_is_frame :
    (∀ dest v ok, isArrJson v = false →
      doActionsAt dest (some (some v)) ok =
        { result := .ok (), manifestDeleted := false, removed := [],
          warns := [] }) ∧
    (∀ dest manifest ok,
      (doActionsAt dest manifest ok).manifestDeleted = true →
      ∃ items, manifest = some (some (.arr items))) := by
  constructor
  · intro dest v ok hv
    cases v <;> simp_all [doActionsAt, isArrJson]
  · intro dest manifest ok h
    match manifest with
    | none => simp [doActionsAt] at h
    | some none => simp [doActionsAt] at h
    | some (some v) =>
      cases v with
      | arr items => exact ⟨items, rfl⟩
      | null => simp [doActionsAt] at h
      | bool b => simp [doActionsAt] at h
      | num n => simp [doActionsAt] at h
      | str s => simp [doActionsAt] at h
      | obj fields => simp [doActionsAt] at h

/-- Witness for C10: a top-level JSON object (the shape a hand-written
manifest most plausibly mis-uses) triggers the no-op path. -/
theorem c10_nonarray_manifest_is_frame_witness :
    isArrJson (.obj [("degit", .num 1)]) = false ∧
    doActionsAt "/dest" (some (some (.obj [("degit", .num 1)])))
      (fun _ => true) =
      { result := .ok (), manifestDeleted := false, removed := [],
        warns := [] } :=
  ⟨rfl, c10_nonarray_manifest_is_frame.1 "/dest" (.obj [("degit", .num 1)])
    (fun _ => true) rfl⟩

/-! ## Claim C9 — absolute `files` entries escape the destination -/

/-- C9: `remove`-action file strings are resolved with
`path.resolve(dest, file)`, in which an absolute path ignores `dest`:
an absolute `files` entry makes the deletion target that absolute path
itself — concretely, destination `/out` with entry `/etc/passwd`
unlinks `/etc/passwd`, which is not under `/out/` at all. -/
theorem c9_absolute_files_ignore_dest :
    (∀ dest file : String, file.data.head? = some '/' →
      pathResolve dest file = file) ∧
    (∀ (dest f : String), f.data.head? = some '/' →
      removalTargets dest
        [.obj [("action", .str "remove"), ("files", .arr [.str f])]] =
        [f]) ∧
    removalTargets "/out"
      [.obj [("action", .str "remove"), ("files", .arr [.str "/etc/passwd"])]]
      = ["/etc/passwd"] ∧
    dropPrefix? "/out/".data "/etc/passwd".data = none := by
  have habs : ∀ dest file : String, file.data.head? = some '/' →
      pathResolve dest file = file := by
    intro dest file h
    simp [pathResolve, h]
  refine ⟨habs, fun dest f hf => ?_, ?_, by decide⟩
  · have h : removalTargets dest
        [.obj [("action", .str "remove"), ("files", .arr [.str f])]] =
        [pathResolve dest f] := rfl
    rw [h, habs dest f hf]
  · have h : removalTargets "/out"
        [.obj [("action", .str "remove"),
          ("files", .arr [.str "/etc/passwd"])]] =
        [pathResolve "/out" "/etc/passwd"] := rfl
    rw [h, habs "/out" "/etc/passwd" rfl]

/-- Witness for C9 at a concrete absolute entry. -/
theorem c9_absolute_files_ignore_dest_witness :
    ("/abs/x".data.head? = some '/') ∧
    removalTargets "/dest"
      [.obj [("action", .str "remove"), ("files", .arr [.str "/abs/x"])]] =
      ["/abs/x"] :=
  ⟨rfl, c9_absolute_files_ignore_dest.2.1 "/dest" "/abs/x" rfl⟩

/-! ## Helper lemmas for the parser claims -/

/-- Whether a string contains two adjacent `/` characters. -/
def hasDoubleSlash : List Char → Bool
  | [] => false
  | c :: rest =>
    if c = '/' ∧ rest.head? = some '/' then true else hasDoubleSlash rest

theorem tw_split (p : Char → Bool) :
    ∀ (l : List Char) (x : Char) (r : List Char),
      (∀ c ∈ l, p c = true) → p x = false →
      (l ++ x :: r).takeWhile p = l ∧ (l ++ x :: r).dropWhile p = x :: r := by
  intro l
  induction l with
  | nil =>
    intro x r _ hx
    simp [List.takeWhile_cons, List.dropWhile_cons, hx]
  | cons c cs ih =>
    intro x r hall hx
    have hc : p c = true := hall c (by simp)
    have ihr := ih x r (fun d hd => hall d (by simp [hd])) hx
    simp [List.takeWhile_cons, List.dropWhile_cons, hc, ihr.1, ihr.2]

theorem tw_all (p : Char → Bool) :
    ∀ l : List Char, (∀ c ∈ l, p c = true) →
      l.takeWhile p = l ∧ l.dropWhile p = [] := by
  intro l hall
  exact ⟨List.takeWhile_eq_self_iff.mpr hall, List.dropWhile_eq_nil_iff.mpr hall⟩

theorem collapseSlashes_head? (s : List Char) :
    (collapseSlashes s).head? = s.head? := by
  induction s with
  | nil => rfl
  | cons c rest ih =>
    by_cases h : c = '/' ∧ rest.head? = some '/'
    · rw [collapseSlashes, if_pos h, ih, h.2, List.head?_cons, h.1]
    · rw [collapseSlashes, if_neg h]
      rfl

theorem collapseSlashes_eq_nil (s : List Char) :
    collapseSlashes s = [] ↔ s = [] := by
  induction s with
  | nil => simp [collapseSlashes]
  | cons c rest ih =>
    constructor
    · intro h
      by_cases hc : c = '/' ∧ rest.head? = some '/'
      · rw [collapseSlashes, if_pos hc] at h
        have := ih.mp h
        simp [this] at hc
      · rw [collapseSlashes, if_neg hc] at h
        cases h
    · intro h
      cases h

theorem collapseSlashes_getLast? (s : List Char) :
    (collapseSlashes s).getLast? = s.getLast? := by
  induction s with
  | nil => rfl
  | cons c rest ih =>
    by_cases h : c = '/' ∧ rest.head? = some '/'
    · rw [collapseSlashes, if_pos h, ih]
      cases rest with
      | nil => simp at h
      | cons r rs => rw [List.getLast?_cons_cons]
    · rw [collapseSlashes, if_neg h]
      cases rest with
      | nil => simp [collapseSlashes]
      | cons r rs =>
        obtain ⟨d, ds, hd⟩ : ∃ d ds, collapseSlashes (r :: rs) = d :: ds := by
          cases hx : collapseSlashes (r :: rs) with
          | nil =>
            cases (collapseSlashes_eq_nil (r :: rs)).mp hx
          | cons d ds => exact ⟨d, ds, rfl⟩
        rw [hd, List.getLast?_cons_cons, ← hd, ih, List.getLast?_cons_cons]

theorem hasDoubleSlash_collapseSlashes (s : List Char) :
    hasDoubleSlash (collapseSlashes s) = false := by
  induction s with
  | nil => rfl
  | cons c rest ih =>
    by_cases h : c = '/' ∧ rest.head? = some '/'
    · rw [collapseSlashes, if_pos h]
      exact ih
    · rw [collapseSlashes, if_neg h, hasDoubleSlash,
        if_neg (by rw [collapseSlashes_head?]; exact h)]
      exact ih

theorem hasDoubleSlash_tail (c : Char) (rest : List Char)
    (h : hasDoubleSlash (c :: rest) = false) : hasDoubleSlash rest = false := by
  by_cases hc : c = '/' ∧ rest.head? = some '/'
  · rw [hasDoubleSlash, if_pos hc] at h
    cases h
  · rwa [hasDoubleSlash, if_neg hc] at h

theorem collapseSlashes_append_slash :
    ∀ s : List Char, hasDoubleSlash s = false → s.getLast? = some '/' →
      collapseSlashes (s ++ ['/']) = s := by
  intro s
  induction s with
  | nil => intro _ h; cases h
  | cons c rest ih =>
    intro hnd hlast
    cases rest with
    | nil =>
      have hc : c = '/' := by simpa using hlast
      subst hc
      rfl
    | cons r rs =>
      have hcr : ¬(c = '/' ∧ r = '/') := by
        intro ⟨h1, h2⟩
        rw [hasDoubleSlash, if_pos ⟨h1, by rw [h2]; rfl⟩] at hnd
        cases hnd
      have step : collapseSlashes ((c :: r :: rs) ++ ['/']) =
          c :: collapseSlashes ((r :: rs) ++ ['/']) := by
        rw [List.cons_append, collapseSlashes, if_neg (by simpa using hcr)]
      rw [step, ih (hasDoubleSlash_tail c _ hnd) (by simpa using hlast)]

theorem normalizeSub_head? (x : Option (List Char)) :
    (normalizeSub x).head? = some '/' := by
  rw [normalizeSub, collapseSlashes_head?]
  rfl

theorem normalizeSub_getLast? (x : Option (List Char)) :
    (normalizeSub x).getLast? = some '/' := by
  rw [normalizeSub, collapseSlashes_getLast?]
  rw [show '/' :: (x.getD []) ++ ['/'] = ('/' :: x.getD []) ++ ['/'] from rfl]
  exact List.getLast?_concat _

theorem normalizeSub_noDouble (x : Option (List Char)) :
    hasDoubleSlash (normalizeSub x) = false :=
  hasDoubleSlash_collapseSlashes _

theorem dropWhile_head?_false {p : Char → Bool} {l : List Char} {x : Char}
    (h : (l.dropWhile p).head? = some x) : p x = false := by
  have := List.head?_dropWhile_not p l
  rw [h] at this
  exact this

/-! ## Claim C8 — idempotence of subPath normalization -/

/-- C8: subPath normalization is idempotent — on any already-normalized
subPath (starts and ends with `/`, no consecutive `/`) it is the
identity, hence re-normalizing any normalization output changes nothing —
and the raw sub-path `sub///foo//bar//` normalizes to `/sub/foo/bar/`. -/
theorem c8_normalization_idempotent :
    (∀ s : List Char, s.head? = some '/' → s.getLast? = some '/' →
      hasDoubleSlash s = false → normalizeSub (some s) = s) ∧
    (∀ x : Option (List Char),
      normalizeSub (some (normalizeSub x)) = normalizeSub x) ∧
    normalizeSub (some "sub///foo//bar//".data) = "/sub/foo/bar/".data := by
  have h1 : ∀ s : List Char, s.head? = some '/' → s.getLast? = some '/' →
      hasDoubleSlash s = false → normalizeSub (some s) = s := by
    intro s hh hl hd
    cases s with
    | nil => simp at hh
    | cons a t =>
      have ha : a = '/' := by simpa using hh
      subst ha
      show collapseSlashes ('/' :: ('/' :: (t ++ ['/']))) = '/' :: t
      rw [collapseSlashes, if_pos ⟨rfl, rfl⟩]
      exact collapseSlashes_append_slash ('/' :: t) hd hl
  exact ⟨h1, fun x => h1 _ (normalizeSub_head? x) (normalizeSub_getLast? x)
    (normalizeSub_noDouble x), by decide⟩

/-- Witness for C8 at the already-normalized subPath `/a/b/`. -/
theorem c8_normalization_idempotent_witness :
    normalizeSub (some "/a/b/".data) = "/a/b/".data :=
  c8_normalization_idempotent.1 "/a/b/".data rfl (by decide) (by decide)

/-! ## Claim C7 — invariants of every accepted CloneSpec -/

theorem matchSpecifier_inv {src u : List Char}
    {sb rf : Option (List Char)}
    (h : matchSpecifier src = some (u, sb, rf)) :
    (∃ a b, u = a ++ '/' :: b ∧ a ≠ [] ∧ (∀ c ∈ a, c ≠ '/') ∧
      b ≠ [] ∧ (∀ c ∈ b, c ≠ '/' ∧ c ≠ '#')) ∧
    (∀ g, rf = some g → ∃ t, g = '#' :: t) := by
  have hmem_a : ∀ c ∈ src.takeWhile (· != '/'), c ≠ '/' := by
    intro c hc
    simpa using List.mem_takeWhile_imp hc
  simp only [matchSpecifier] at h
  split at h
  case h_2 => cases h
  case h_1 rest1 heq =>
    have hmem_b : ∀ c ∈ rest1.takeWhile (fun c => c != '/' && c != '#'),
        c ≠ '/' ∧ c ≠ '#' := by
      intro c hc
      have hx := List.mem_takeWhile_imp hc
      simp only [Bool.and_eq_true, bne_iff_ne, ne_eq] at hx
      exact hx
    split at h
    · cases h
    next ha =>
      split at h
      · cases h
      next hb =>
        have base : ∃ a b,
            (src.takeWhile (· != '/') ++
              '/' :: rest1.takeWhile (fun c => c != '/' && c != '#') :
              List Char) = a ++ '/' :: b ∧ a ≠ [] ∧ (∀ c ∈ a, c ≠ '/') ∧
              b ≠ [] ∧ (∀ c ∈ b, c ≠ '/' ∧ c ≠ '#') :=
          ⟨_, _, rfl, ha, hmem_a, hb, hmem_b⟩
        split at h
        · simp only [Option.some_inj, Prod.mk.injEq] at h
          obtain ⟨rfl, rfl, rfl⟩ := h
          exact ⟨base, by simp⟩
        · split at h
          · simp only [Option.some_inj, Prod.mk.injEq] at h
            obtain ⟨rfl, rfl, rfl⟩ := h
            exact ⟨base, by simp⟩
          · split at h
            · simp only [Option.some_inj, Prod.mk.injEq] at h
              obtain ⟨rfl, rfl, rfl⟩ := h
              refine ⟨base, ?_⟩
              intro g hg
              exact ⟨_, (Option.some_inj.mp hg).symm⟩
            · cases h
          · cases h
        · split at h
          · simp only [Option.some_inj, Prod.mk.injEq] at h
            obtain ⟨rfl, rfl, rfl⟩ := h
            refine ⟨base, ?_⟩
            intro g hg
            exact ⟨_, (Option.some_inj.mp hg).symm⟩
          · cases h
        · cases h

/-- C7: every `CloneSpec` the parser accepts satisfies the invariants. -/
theorem c7_clonespec_invariants :
    ∀ src spec, hinaNew src = .ok spec →
      (∃ a b, spec.userRepo = a ++ '/' :: b ∧ a ≠ [] ∧ (∀ c ∈ a, c ≠ '/') ∧
        b ≠ [] ∧ (∀ c ∈ b, c ≠ '/' ∧ c ≠ '#')) ∧
      spec.sub.head? = some '/' ∧ spec.sub.getLast? = some '/' ∧
      hasDoubleSlash spec.sub = false ∧
      (∀ g, spec.ref = some g → g.head? ≠ some '#') := by
  intro src spec h
  unfold hinaNew at h
  cases hm : matchSpecifier src with
  | none =>
    rw [hm] at h
    cases h
  | some v =>
    obtain ⟨u, sb, rf⟩ := v
    rw [hm] at h
    obtain ⟨hshape, href⟩ := matchSpecifier_inv hm
    cases h
    refine ⟨hshape, normalizeSub_head? sb, normalizeSub_getLast? sb,
      normalizeSub_noDouble sb, ?_⟩
    intro g hg
    cases rf with
    | none => cases hg
    | some g0 =>
      have hg0 : g = stripLeadingHashes g0 :=
        (Option.some_inj.mp hg).symm
      intro hhead
      have hfalse : ('#' == '#') = false := by
        refine dropWhile_head?_false (p := (· == '#')) (l := g0) ?_
        rw [← stripLeadingHashes, ← hg0, hhead]
      simp at hfalse

/-- Witness for C7 at the specifier `acme/widgets/sub#v2`. -/
theorem c7_clonespec_invariants_witness :
    (∃ a b, ("acme/widgets".data : List Char) = a ++ '/' :: b ∧ a ≠ [] ∧
      (∀ c ∈ a, c ≠ '/') ∧ b ≠ [] ∧ (∀ c ∈ b, c ≠ '/' ∧ c ≠ '#')) ∧
    ("/sub/".data : List Char).head? = some '/' ∧
    ("/sub/".data : List Char).getLast? = some '/' ∧
    hasDoubleSlash "/sub/".data = false ∧
    (∀ g, (some "v2".data : Option (List Char)) = some g →
      g.head? ≠ some '#') :=
  c7_clonespec_invariants "acme/widgets/sub#v2".data
    ⟨"acme/widgets".data, "/sub/".data, some "v2".data⟩ (by decide)

/-! ## Claim C3 -- the specifier grammar -/

/-- C3: for every input of the shapes `owner/repo`, `owner/repo/sub`,
`owner/repo#ref` and `owner/repo/sub#ref` (owner nonempty and
slash-free; repo nonempty, slash- and hash-free; sub hash-free; ref
nonempty and free of line terminators), parsing yields
`(repositoryId = owner/repo, normalized subPath, normalized ref)`;
and every input the grammar rejects — in particular any string missing
the `owner/repo` shape because it contains no `/` at all — fails with
`InvalidSpecifier` carrying the original input string. -/
theorem c3_specifier_grammar :
    (∀ o r : List Char, o ≠ [] → (∀ c ∈ o, c ≠ '/') →
      r ≠ [] → (∀ c ∈ r, c ≠ '/' ∧ c ≠ '#') →
      hinaNew (o ++ '/' :: r) = .ok ⟨o ++ '/' :: r, ['/'], none⟩) ∧
    (∀ o r s : List Char, o ≠ [] → (∀ c ∈ o, c ≠ '/') →
      r ≠ [] → (∀ c ∈ r, c ≠ '/' ∧ c ≠ '#') → (∀ c ∈ s, c ≠ '#') →
      hinaNew (o ++ '/' :: (r ++ '/' :: s)) =
        .ok ⟨o ++ '/' :: r, normalizeSub (some ('/' :: s)), none⟩) ∧
    (∀ o r f : List Char, o ≠ [] → (∀ c ∈ o, c ≠ '/') →
      r ≠ [] → (∀ c ∈ r, c ≠ '/' ∧ c ≠ '#') →
      f ≠ [] → (∀ c ∈ f, jsDot c = true) →
      hinaNew (o ++ '/' :: (r ++ '#' :: f)) =
        .ok ⟨o ++ '/' :: r, ['/'], some (stripLeadingHashes ('#' :: f))⟩) ∧
    (∀ o r s f : List Char, o ≠ [] → (∀ c ∈ o, c ≠ '/') →
      r ≠ [] → (∀ c ∈ r, c ≠ '/' ∧ c ≠ '#') → (∀ c ∈ s, c ≠ '#') →
      f ≠ [] → (∀ c ∈ f, jsDot c = true) →
      hinaNew (o ++ '/' :: (r ++ '/' :: (s ++ '#' :: f))) =
        .ok ⟨o ++ '/' :: r, normalizeSub (some ('/' :: s)),
          some (stripLeadingHashes ('#' :: f))⟩) ∧
    (∀ src, matchSpecifier src = none →
      hinaNew src = .error (.invalidSpecifier src)) ∧
    (∀ src, (∀ c ∈ src, c ≠ '/') →
      hinaNew src = .error (.invalidSpecifier src)) := by
  refine ⟨?_, ?_, ?_, ?_, ?_, ?_⟩
  · intro o r ho1 ho2 hr1 hr2
    have e1 := tw_split (· != '/') o '/' r
      (fun c hc => by simpa using ho2 c hc) (by decide)
    have e2 := tw_all (fun c => c != '/' && c != '#') r
      (fun c hc => by simpa using hr2 c hc)
    simp only [hinaNew, matchSpecifier, e1.1, e1.2, e2.1, e2.2,
      if_neg ho1, if_neg hr1]
    rfl
  · intro o r s ho1 ho2 hr1 hr2 hs
    have e1 := tw_split (· != '/') o '/' (r ++ '/' :: s)
      (fun c hc => by simpa using ho2 c hc) (by decide)
    have e2 := tw_split (fun c => c != '/' && c != '#') r '/' s
      (fun c hc => by simpa using hr2 c hc) (by decide)
    have e3 := tw_all (· != '#') s (fun c hc => by simpa using hs c hc)
    simp only [hinaNew, matchSpecifier, e1.1, e1.2, e2.1, e2.2, e3.1, e3.2,
      if_neg ho1, if_neg hr1]
    rfl
  · intro o r f ho1 ho2 hr1 hr2 hf1 hf2
    have e1 := tw_split (· != '/') o '/' (r ++ '#' :: f)
      (fun c hc => by simpa using ho2 c hc) (by decide)
    have e2 := tw_split (fun c => c != '/' && c != '#') r '#' f
      (fun c hc => by simpa using hr2 c hc) (by decide)
    have hall : f.all jsDot = true := List.all_eq_true.mpr hf2
    simp only [hinaNew, matchSpecifier, e1.1, e1.2, e2.1, e2.2,
      if_neg ho1, if_neg hr1, if_pos (And.intro hf1 hall)]
    rfl
  · intro o r s f ho1 ho2 hr1 hr2 hs hf1 hf2
    have e1 := tw_split (· != '/') o '/' (r ++ '/' :: (s ++ '#' :: f))
      (fun c hc => by simpa using ho2 c hc) (by decide)
    have e2 := tw_split (fun c => c != '/' && c != '#') r '/' (s ++ '#' :: f)
      (fun c hc => by simpa using hr2 c hc) (by decide)
    have e3 := tw_split (· != '#') s '#' f
      (fun c hc => by simpa using hs c hc) (by decide)
    have hall : f.all jsDot = true := List.all_eq_true.mpr hf2
    simp only [hinaNew, matchSpecifier, e1.1, e1.2, e2.1, e2.2, e3.1, e3.2,
      if_neg ho1, if_neg hr1, if_pos (And.intro hf1 hall)]
    rfl
  · intro src h
    simp only [hinaNew, h]
  · intro src hs
    have e := tw_all (· != '/') src (fun c hc => by simpa using hs c hc)
    simp only [hinaNew, matchSpecifier, e.2]

/-- Witness for C3 at `owner/repo/sub#ref` and at the slash-free
specifier `norepo`. -/
theorem c3_specifier_grammar_witness :
    hinaNew "owner/repo/sub#ref".data =
      .ok ⟨"owner/repo".data, "/sub/".data, some "ref".data⟩ ∧
    hinaNew "norepo".data = .error (.invalidSpecifier "norepo".data) := by
  constructor
  · exact (c3_specifier_grammar.2.2.2.1 "owner".data "repo".data "sub".data
      "ref".data (by decide) (by decide) (by decide) (by decide) (by decide)
      (by decide) (by decide)).trans (by decide)
  · exact c3_specifier_grammar.2.2.2.2.2 "norepo".data (by decide)

/-! ## Claim C4 — wrapper discovery -/

theorem topDirName_of_shape {name : List Char} (h1 : name ≠ [])
    (h2 : ∀ c ∈ name, c ≠ '/') :
    topDirName (name ++ ['/']) = some name := by
  have e := tw_split (· != '/') name '/' []
    (fun c hc => by simpa using h2 c hc) (by decide)
  rw [topDirName]
  simp only [e.1]
  simp [h1]

theorem topDirName_inv {p name : List Char}
    (h : topDirName p = some name) :
    name ≠ [] ∧ (∀ c ∈ name, c ≠ '/') ∧ p = name ++ ['/'] := by
  rw [topDirName] at h
  split at h
  next hcond =>
    obtain ⟨h1, h2⟩ := hcond
    cases h
    exact ⟨h1, fun c hc => by simpa using List.mem_takeWhile_imp hc, h2⟩
  · cases h

theorem findWrapper_append_of_none {pre rest : List (List Char)}
    (h : ∀ e ∈ pre, topDirName e = none) :
    findWrapper (pre ++ rest) = findWrapper rest := by
  induction pre with
  | nil => rfl
  | cons p ps ih =>
    rw [List.cons_append, findWrapper, List.findSome?_cons,
      h p (by simp)]
    exact ih fun e he => h e (by simp [he])

theorem findWrapper_eq_none {entries : List (List Char)}
    (h : ∀ e ∈ entries, topDirName e = none) :
    findWrapper entries = none := by
  induction entries with
  | nil => rfl
  | cons p ps ih =>
    rw [findWrapper, List.findSome?_cons, h p (by simp)]
    exact ih fun e he => h e (by simp [he])

/-- C4: wrapper discovery scans the archive listing in order; the
wrapper used by extraction is the name of the first entry of the form
`name/` (nonempty `name` without an internal separator followed by a
single trailing separator), and when no entry of that form exists the
extraction fails with `NoWrapperFound`. -/
theorem c4_wrapper_discovery :
    (∀ (pre post : List (List Char)) (name : List Char),
      name ≠ [] → (∀ c ∈ name, c ≠ '/') →
      (∀ e ∈ pre, topDirName e = none) →
      findWrapper (pre ++ (name ++ ['/']) :: post) = some name) ∧
    (∀ (entries : List (List Char)) (sub : List Char),
      (∀ e ∈ entries, topDirName e = none) →
      hinaExtract entries sub = .error .noWrapperFound) := by
  constructor
  · intro pre post name h1 h2 hpre
    rw [findWrapper_append_of_none hpre, findWrapper, List.findSome?_cons,
      topDirName_of_shape h1 h2]
  · intro entries sub h
    rw [hinaExtract, findWrapper_eq_none h]

/-- Witness for C4: `wrapperX/` is found behind a leading non-directory
entry, and an archive with no top-level directory entry fails. -/
theorem c4_wrapper_discovery_witness :
    findWrapper ["a.txt".data, "wrapperX/".data, "other/".data] =
      some "wrapperX".data ∧
    hinaExtract ["a.txt".data, "b/c.txt".data] "/".data =
      .error .noWrapperFound := by
  constructor
  · exact c4_wrapper_discovery.1 ["a.txt".data] ["other/".data]
      "wrapperX".data (by decide) (by decide) (by decide)
  · exact c4_wrapper_discovery.2 ["a.txt".data, "b/c.txt".data] "/".data
      (by decide)

/-! ## Claim C2 -- selective extraction with prefix stripping -/

theorem splitSlash_ne_nil (s : List Char) : splitSlash s ≠ [] := by
  cases s with
  | nil => simp [splitSlash]
  | cons c rest =>
    rw [splitSlash]
    by_cases hc : c = '/'
    · simp [hc]
    · rw [if_neg hc]
      cases hx : splitSlash rest <;> simp

theorem splitSlash_append (a b : List Char) :
    splitSlash (a ++ '/' :: b) = splitSlash a ++ splitSlash b := by
  induction a with
  | nil => simp [splitSlash]
  | cons c cs ih =>
    by_cases hc : c = '/'
    · subst hc
      rw [List.cons_append, splitSlash, if_pos rfl, ih,
        show splitSlash ('/' :: cs) = [] :: splitSlash cs from by
          rw [splitSlash, if_pos rfl],
        List.cons_append]
    · rw [List.cons_append, splitSlash, if_neg hc, ih]
      cases hx : splitSlash cs with
      | nil => exact absurd hx (splitSlash_ne_nil cs)
      | cons s ss =>
        rw [show splitSlash (c :: cs) = (c :: s) :: ss from by
          rw [splitSlash, if_neg hc, hx]]
        rfl

theorem joinSlash_splitSlash (s : List Char) :
    joinSlash (splitSlash s) = s := by
  induction s with
  | nil => rfl
  | cons c rest ih =>
    by_cases hc : c = '/'
    · subst hc
      rw [splitSlash, if_pos rfl]
      cases hx : splitSlash rest with
      | nil => exact absurd hx (splitSlash_ne_nil rest)
      | cons t ts =>
        rw [joinSlash, ← hx, ih]
        rfl
    · rw [splitSlash, if_neg hc]
      cases hx : splitSlash rest with
      | nil => exact absurd hx (splitSlash_ne_nil rest)
      | cons t ts =>
        cases ts with
        | nil =>
          have : t = rest := by
            have := ih
            rw [hx] at this
            simpa [joinSlash] using this
          simp [joinSlash, this]
        | cons q qs =>
          have : joinSlash ((c :: t) :: q :: qs) =
              c :: joinSlash (t :: q :: qs) := by
            rw [joinSlash, joinSlash]
            rfl
          rw [this, ← hx, ih]

theorem joinSlash_replicate_nil (k : Nat) :
    joinSlash (List.replicate (k + 1) ([] : List Char)) =
      List.replicate k '/' := by
  induction k with
  | zero => rfl
  | succ j ih =>
    show '/' :: joinSlash (List.replicate (j + 1) ([] : List Char)) =
      List.replicate (j + 1) '/'
    rw [ih]
    rfl

theorem splitSlash_replicate (k : Nat) :
    splitSlash (List.replicate k '/') =
      List.replicate (k + 1) ([] : List Char) := by
  induction k with
  | zero => rfl
  | succ j ih =>
    show splitSlash ('/' :: List.replicate j '/') = _
    rw [splitSlash, if_pos rfl, ih]
    rfl

theorem sts_replicate (k : Nat) :
    stripTrailSlashes (List.replicate k '/') = [] := by
  induction k with
  | zero => rfl
  | succ j ih =>
    show stripTrailSlashes ('/' :: List.replicate j '/') = []
    rw [stripTrailSlashes, ih]
    rfl

theorem sts_spec : ∀ (s : List Char) (k : Nat), s.getLast? ≠ some '/' →
    stripTrailSlashes (s ++ List.replicate k '/') = s := by
  intro s
  induction s with
  | nil =>
    intro k _
    exact sts_replicate k
  | cons c cs ih =>
    intro k hl
    cases cs with
    | nil =>
      have hc : c ≠ '/' := by simpa using hl
      show stripTrailSlashes (c :: List.replicate k '/') = [c]
      rw [stripTrailSlashes, sts_replicate]
      simp [hc]
    | cons d ds =>
      have hl' : (d :: ds).getLast? ≠ some '/' := by
        rwa [List.getLast?_cons_cons] at hl
      have ihr := ih k hl'
      show stripTrailSlashes (c :: ((d :: ds) ++ List.replicate k '/')) =
        c :: d :: ds
      rw [stripTrailSlashes, ihr]

theorem sts_decomp (e : List Char) :
    ∃ k, e = stripTrailSlashes e ++ List.replicate k '/' ∧
      (stripTrailSlashes e).getLast? ≠ some '/' := by
  induction e with
  | nil => exact ⟨0, rfl, by decide⟩
  | cons c rest ih =>
    obtain ⟨k, hk, hl⟩ := ih
    cases hx : stripTrailSlashes rest with
    | nil =>
      rw [hx] at hk
      simp only [List.nil_append] at hk
      by_cases hc : c = '/'
      · subst hc
        have hsc : stripTrailSlashes ('/' :: rest) = [] := by
          rw [stripTrailSlashes, hx]
          rfl
        refine ⟨k + 1, ?_, ?_⟩
        · rw [hsc, List.nil_append, hk]
          rfl
        · rw [hsc]
          simp
      · have hsc : stripTrailSlashes (c :: rest) = [c] := by
          rw [stripTrailSlashes, hx]
          simp [hc]
        refine ⟨k, ?_, ?_⟩
        · rw [hsc, hk]
          rfl
        · rw [hsc]
          simpa using hc
    | cons d ds =>
      have hsc : stripTrailSlashes (c :: rest) = c :: d :: ds := by
        rw [stripTrailSlashes, hx]
      rw [hx] at hk hl
      refine ⟨k, ?_, ?_⟩
      · rw [hsc, hk]
        rfl
      · rw [hsc, List.getLast?_cons_cons]
        exact hl

theorem dropPrefix?_append (p r : List Char) :
    dropPrefix? p (p ++ r) = some r := by
  induction p with
  | nil => rfl
  | cons c cs ih =>
    show dropPrefix? (c :: cs) (c :: (cs ++ r)) = some r
    rw [dropPrefix?, if_pos rfl]
    exact ih

theorem dropPrefix?_eq_some {p l r : List Char}
    (h : dropPrefix? p l = some r) : l = p ++ r := by
  induction p generalizing l with
  | nil =>
    rw [dropPrefix?] at h
    rw [List.nil_append, Option.some_inj.mp h]
  | cons c cs ih =>
    cases l with
    | nil => cases h
    | cons d ls =>
      rw [dropPrefix?] at h
      by_cases hcd : c = d
      · rw [if_pos hcd] at h
        subst hcd
        rw [List.cons_append, ih h]
      · rw [if_neg hcd] at h
        cases h

theorem dropPrefix?_length {p l r : List Char}
    (h : dropPrefix? p l = some r) : p.length ≤ l.length := by
  rw [dropPrefix?_eq_some h]
  simp

/-- Spec-side characterization of the selective extraction (written from
the spec's words, for comparison with the embedded node-tar behaviour):
an entry is extracted iff it lies strictly below the composed subtree
path `wrapperDir`, and its output is the entry path with that prefix
removed. -/
def specStripEntry (wrapperDir e : List Char) : Option (List Char) :=
  match dropPrefix? wrapperDir e with
  | some rest => if rest = [] then none else some rest
  | none => none

theorem tarSel_eq_specStrip (w e : List Char)
    (hlast : w.getLast? ≠ some '/') :
    (if tarEntryMatches (w ++ ['/']) e then
        tarStripPath (splitSlash w).length e else none) =
    specStripEntry (w ++ ['/']) e := by
  have hstsw : stripTrailSlashes (w ++ ['/']) = w := by
    have h := sts_spec w 1 hlast
    simpa using h
  have hmatch : tarEntryMatches (w ++ ['/']) e =
      ((stripTrailSlashes e == w) ||
        (dropPrefix? (w ++ ['/']) (stripTrailSlashes e)).isSome) := by
    simp only [tarEntryMatches, hstsw]
  obtain ⟨k, he, hsl⟩ := sts_decomp e
  generalize hs : stripTrailSlashes e = s at he hsl hmatch
  by_cases hsw : s = w
  · rw [hsw] at he
    rw [hmatch, hsw]
    simp only [beq_self_eq_true, Bool.true_or, if_true]
    cases k with
    | zero =>
      simp only [List.replicate, List.append_nil] at he
      rw [he]
      cases hdp : dropPrefix? (w ++ ['/']) w with
      | none => simp [tarStripPath, specStripEntry, hdp, joinSlash]
      | some r =>
        have hle := dropPrefix?_length hdp
        simp at hle
    | succ j =>
      rw [List.replicate_succ] at he
      subst he
      rw [tarStripPath]
      rw [splitSlash_append, splitSlash_replicate]
      simp only [List.length_append, List.length_replicate]
      rw [if_neg (by omega)]
      rw [List.drop_left' (by rfl), joinSlash_replicate_nil]
      rw [specStripEntry,
        show w ++ '/' :: List.replicate j '/' =
          (w ++ ['/']) ++ List.replicate j '/' by simp,
        dropPrefix?_append]
  · have hbeq : (s == w) = false := by
      simpa using hsw
    rw [hmatch, hbeq, Bool.false_or]
    cases hdp : dropPrefix? (w ++ ['/']) s with
    | some m =>
      have hsm : s = (w ++ ['/']) ++ m := dropPrefix?_eq_some hdp
      have hm : m ≠ [] := by
        intro hmn
        subst hmn
        rw [List.append_nil] at hsm
        rw [hsm, List.getLast?_concat] at hsl
        exact hsl rfl
      subst hsm
      subst he
      simp only [Option.isSome_some, if_true]
      rw [tarStripPath]
      have heq : ((w ++ ['/']) ++ m) ++ List.replicate k '/' =
          w ++ '/' :: (m ++ List.replicate k '/') := by
        simp
      rw [heq, splitSlash_append]
      simp only [List.length_append]
      have hpos : 0 < (splitSlash (m ++ List.replicate k '/')).length := by
        cases hq : splitSlash (m ++ List.replicate k '/') with
        | nil => exact absurd hq (splitSlash_ne_nil _)
        | cons q qs => simp
      rw [if_neg (by omega)]
      rw [List.drop_left' (by rfl), joinSlash_splitSlash]
      rw [if_neg (by simp [hm]), specStripEntry,
        show w ++ '/' :: (m ++ List.replicate k '/') =
          (w ++ ['/']) ++ (m ++ List.replicate k '/') by simp,
        dropPrefix?_append]
      have hne : m ++ List.replicate k '/' ≠ [] := by simp [hm]
      simp [hne]
    | none =>
      simp only [Option.isSome_none, if_false]
      rw [specStripEntry]
      cases hdpe : dropPrefix? (w ++ ['/']) e with
      | none => rfl
      | some r =>
        exfalso
        have her : e = (w ++ ['/']) ++ r := dropPrefix?_eq_some hdpe
        obtain ⟨j, hr, hrl⟩ := sts_decomp r
        cases hrx : stripTrailSlashes r with
        | nil =>
          rw [hrx] at hr
          simp only [List.nil_append] at hr
          have hse : e = w ++ List.replicate (j + 1) '/' := by
            rw [her, hr, List.replicate_succ]
            simp
          have : s = w := by
            rw [← hs, hse]
            exact sts_spec w (j + 1) hlast
          exact hsw this
        | cons d ds =>
          rw [hrx] at hr hrl
          have hse : e = (w ++ '/' :: (d :: ds)) ++ List.replicate j '/' := by
            rw [her, hr]
            simp
          have hlast2 : (w ++ '/' :: (d :: ds)).getLast? ≠ some '/' := by
            rw [List.getLast?_append]
            rw [List.getLast?_cons_cons]
            obtain ⟨x, hx2⟩ := Option.isSome_iff_exists.mp
              (List.getLast?_isSome.mpr (by simp : (d :: ds : List Char) ≠ []))
            rw [hx2]
            rw [hx2] at hrl
            simpa using hrl
          have hsval : s = w ++ '/' :: (d :: ds) := by
            rw [← hs, hse]
            exact sts_spec _ j hlast2
          have : dropPrefix? (w ++ ['/']) s = some (d :: ds) := by
            rw [hsval,
              show w ++ '/' :: (d :: ds) = (w ++ ['/']) ++ (d :: ds) by simp,
              dropPrefix?_append]
          rw [this] at hdp
          cases hdp

theorem exists_concat_of_getLast? :
    ∀ {l : List Char} {c : Char}, l.getLast? = some c → ∃ t, l = t ++ [c] := by
  intro l
  induction l with
  | nil =>
    intro c h
    cases h
  | cons a rest ih =>
    intro c h
    cases rest with
    | nil =>
      have hac : a = c := by simpa using h
      exact ⟨[], by simp [hac]⟩
    | cons b bs =>
      rw [List.getLast?_cons_cons] at h
      obtain ⟨t, ht⟩ := ih h
      exact ⟨a :: t, by rw [List.cons_append, ← ht]⟩

theorem hasDoubleSlash_concat_two : ∀ t : List Char,
    hasDoubleSlash (t ++ ['/', '/']) = true := by
  intro t
  induction t with
  | nil => rfl
  | cons c cs ih =>
    rw [List.cons_append, hasDoubleSlash]
    by_cases hc : c = '/' ∧ (cs ++ ['/', '/']).head? = some '/'
    · rw [if_pos hc]
    · rw [if_neg hc]
      exact ih

theorem findWrapper_shape {entries : List (List Char)} {wrapper : List Char}
    (h : findWrapper entries = some wrapper) :
    wrapper ≠ [] ∧ ∀ c ∈ wrapper, c ≠ '/' := by
  rw [findWrapper] at h
  obtain ⟨e, _, hte⟩ := List.exists_of_findSome?_eq_some h
  obtain ⟨h1, h2, _⟩ := topDirName_inv hte
  exact ⟨h1, h2⟩

theorem normalized_sub_concat {wrapper sub : List Char}
    (hw2 : ∀ c ∈ wrapper, c ≠ '/')
    (hl : sub.getLast? = some '/') (hd : hasDoubleSlash sub = false) :
    ∃ core, sub = core ++ ['/'] ∧
      (wrapper ++ core).getLast? ≠ some '/' := by
  obtain ⟨core, rfl⟩ := exists_concat_of_getLast? hl
  refine ⟨core, rfl, ?_⟩
  cases core with
  | nil =>
    simp only [List.append_nil]
    intro hlw
    exact hw2 '/' (List.mem_of_getLast?_eq_some hlw) rfl
  | cons d ds =>
    intro hlw
    have hlcore : (d :: ds).getLast? = some '/' := by
      rw [List.getLast?_append] at hlw
      obtain ⟨x, hx⟩ := Option.isSome_iff_exists.mp
        (List.getLast?_isSome.mpr (by simp : (d :: ds : List Char) ≠ []))
      rw [hx] at hlw ⊢
      simpa using hlw
    obtain ⟨t, ht⟩ := exists_concat_of_getLast? hlcore
    rw [ht, List.append_assoc] at hd
    simp only [List.singleton_append] at hd
    rw [hasDoubleSlash_concat_two t] at hd
    cases hd

/-- C2: for every archive listing whose wrapper discovery succeeds and
every normalized subPath, `extract` materializes exactly the entries
lying strictly under the composed path `wrapper + subPath`, each
stripped of that prefix — `strip = (segments of the composed path) - 1`
removes precisely the wrapper/subPath prefix — so entries outside the
subtree produce nothing and the subtree's contents land directly in the
destination root; in particular the archive
`wrapperX/`, `wrapperX/a.txt`, `wrapperX/sub/b.txt` with subPath `/sub/`
extracts to `b.txt` only. -/
theorem c2_extract_strips_composed_path :
    ∀ (entries : List (List Char)) (sub wrapper : List Char),
      findWrapper entries = some wrapper →
      sub.head? = some '/' → sub.getLast? = some '/' →
      hasDoubleSlash sub = false →
      hinaExtract entries sub =
        .ok (entries.filterMap (specStripEntry (wrapper ++ sub))) := by
  intro entries sub wrapper hfw hh hl hd
  obtain ⟨_, hw2⟩ := findWrapper_shape hfw
  obtain ⟨core, hcore, hwc⟩ := normalized_sub_concat hw2 hl hd
  simp only [hinaExtract, hfw]
  subst hcore
  have hassoc : wrapper ++ (core ++ ['/']) = (wrapper ++ core) ++ ['/'] :=
    (List.append_assoc ..).symm
  rw [hassoc]
  have hsplit : (splitSlash ((wrapper ++ core) ++ ['/'])).length - 1 =
      (splitSlash (wrapper ++ core)).length := by
    rw [show ((wrapper ++ core) ++ ['/'] : List Char) =
        (wrapper ++ core) ++ '/' :: [] from rfl, splitSlash_append]
    simp [splitSlash]
  rw [hsplit]
  simp only [tarExtract]
  congr 1
  refine List.filterMap_congr ?_
  intro e _
  exact tarSel_eq_specStrip (wrapper ++ core) e hwc

/-- Witness for C2 at the claim's concrete archive: entries `wrapperX/`,
`wrapperX/a.txt`, `wrapperX/sub/b.txt` with subPath `/sub/` extract to
`b.txt` only. -/
theorem c2_extract_strips_composed_path_witness :
    hinaExtract ["wrapperX/".data, "wrapperX/a.txt".data,
      "wrapperX/sub/b.txt".data] "/sub/".data = .ok ["b.txt".data] := by
  have h := c2_extract_strips_composed_path
    ["wrapperX/".data, "wrapperX/a.txt".data, "wrapperX/sub/b.txt".data]
    "/sub/".data "wrapperX".data (by decide) rfl (by decide) (by decide)
  exact h.trans (by decide)
